import Mathlib

/-
Verification of the ezCompiler four-stage pipeline (src/compiler.ts):
tokenizer, parser, transformer (traversal + visitor) and code generator,
with the single entry point compile.

Modelling conventions.
The TypeScript code indexes a fixed array with a mutable cursor; reading
past the end yields the undefined marker and a subsequent field access
crashes.  The embedding works on the list of remaining characters or
tokens instead, and an out-of-range read that the code would crash on is
the error unexpectedEndOfInput.  Scanning loops of the source consume at
least one element per step; they are embedded as fuel-indexed structural
recursions so that every definition is executable, with the wrapper
supplying enough fuel for the whole input (the outOfFuel error is an
artifact of this encoding and is never returned with that much fuel).
Two loops of the tokenizer have no end-of-input check and run forever on
some inputs; those infinite loops are represented by the dedicated error
values unterminatedString and runawayName, documented at their branches.
-/

namespace EzCompiler

instance {ε α : Type} [DecidableEq ε] [DecidableEq α] : DecidableEq (Except ε α) := fun a b =>
  match a, b with
  | .ok x, .ok y =>
      if h : x = y then .isTrue (by rw [h]) else .isFalse (by intro hc; cases hc; exact h rfl)
  | .error x, .error y =>
      if h : x = y then .isTrue (by rw [h]) else .isFalse (by intro hc; cases hc; exact h rfl)
  | .ok _, .error _ => .isFalse (by intro hc; cases hc)
  | .error _, .ok _ => .isFalse (by intro hc; cases hc)

/-- Token of the lexer: a kind tag and the literal text, exactly the
shape of the TypeScript record with fields type and value. -/
structure Token where
  type : String
  value : String
deriving DecidableEq

/-- Errors of the tokenizer.  unexpectedCharacter models the explicit
throw at the end of the scanning loop.  unterminatedString marks the
quote-scanning loop running past the end of the input (the code has no
bound check there and loops forever).  runawayName marks the letter-run
loop running past the end of the input: in JavaScript the test
LETTERS.test(char) with char undefined coerces undefined to the string
"undefined", which contains letters, so the loop never exits.
outOfFuel is an artifact of the fuel encoding, never returned when the
fuel is at least the length of the remaining input. -/
inductive LexErr where
  | unexpectedCharacter (c : Char)
  | unterminatedString
  | runawayName
  | outOfFuel
deriving DecidableEq

/-- The single-quote character, written by code point to keep the file
free of quote characters inside character literals. -/
def squote : Char := Char.ofNat 39

/-- The JavaScript regular expression \s character class (whitespace),
restricted to single code points as in the source test WHITESPACE.test. -/
def WHITESPACE (c : Char) : Bool :=
  c = ' ' || c = '\t' || c = '\n' || c = '\r' || c = '\x0b' || c = '\x0c' ||
  c = '\u00A0' || c = '\u1680' || ('\u2000' ≤ c && c ≤ '\u200A') ||
  c = '\u2028' || c = '\u2029' || c = '\u202F' || c = '\u205F' ||
  c = '\u3000' || c = '\uFEFF'

/-- The regular expression [0-9] of the source. -/
def NUMBERS (c : Char) : Bool := '0' ≤ c && c ≤ '9'

/-- The regular expression [A-Za-z] of the source. -/
def LETTERS (c : Char) : Bool := ('A' ≤ c && c ≤ 'Z') || ('a' ≤ c && c ≤ 'z')

/-- The quote test of the tokenizer: a double or single quote opens a
string literal. -/
def isQuote (c : Char) : Bool := c = '"' || c = squote

/-- The scanning loop of the tokenizer, one fuel unit per iteration of
the outer while loop.  Each branch mirrors one branch of the source:
parentheses, whitespace, digit runs (the inner while collects the run,
embedded as takeWhile and dropWhile), quoted strings (scan to the next
occurrence of the same quote; no occurrence means the loop of the source
never terminates, marked unterminatedString), letter runs (if the run
reaches the end of the input the loop of the source never terminates,
marked runawayName), and the final throw for any other character. -/
def tokenizerLoop : Nat → List Char → Except LexErr (List Token)
  | _, [] => .ok []
  | 0, _ :: _ => .error .outOfFuel
  | fuel + 1, c :: cs =>
    if c = '(' || c = ')' then
      (tokenizerLoop fuel cs).map (fun ts => ⟨"parenthesis", c.toString⟩ :: ts)
    else if WHITESPACE c then tokenizerLoop fuel cs
    else if NUMBERS c then
      (tokenizerLoop fuel (cs.dropWhile NUMBERS)).map
        (fun ts => ⟨"number", String.mk (c :: cs.takeWhile NUMBERS)⟩ :: ts)
    else if isQuote c then
      if c ∈ cs then
        (tokenizerLoop fuel ((cs.dropWhile (fun d => d ≠ c)).tail)).map
          (fun ts => ⟨"string", String.mk (cs.takeWhile (fun d => d ≠ c))⟩ :: ts)
      else .error .unterminatedString
    else if LETTERS c then
      if (cs.dropWhile LETTERS).isEmpty then .error .runawayName
      else
        (tokenizerLoop fuel (cs.dropWhile LETTERS)).map
          (fun ts => ⟨"name", String.mk (c :: cs.takeWhile LETTERS)⟩ :: ts)
    else .error (.unexpectedCharacter c)

/-- Stage 1 of the pipeline: the tokenizer of the source applied to the
whole input.  Every loop iteration consumes at least one character, so
the length of the input is enough fuel. -/
def tokenizer (input : String) : Except LexErr (List Token) :=
  tokenizerLoop input.data.length input.data

/-- Errors of the parser.  unexpectedToken is the explicit throw with the
token type at the end of walk; unexpectedEndOfInput is the crash of the
source on reading a field of the undefined marker obtained by indexing
past the end of the token array (tokens exhausted while a call is still
open).  outOfFuel is an artifact of the fuel encoding. -/
inductive ParseErr where
  | unexpectedEndOfInput
  | unexpectedToken (t : String)
  | outOfFuel
deriving DecidableEq

/-- Source AST node.  The constructors carry the exact type tags the
source writes: the parser produces nodes tagged Program, NumberLiteral,
stringLiteral (lower case, line 130 of compiler.ts) and CallExpression,
while the visitor and the traversal switch handle the distinct tag
StringLiteral (upper case).  Both tags are therefore constructors. -/
inductive SrcNode where
  | Program (body : List SrcNode)
  | NumberLiteral (value : String)
  | stringLiteral (value : String)
  | StringLiteral (value : String)
  | CallExpression (nm : String) (params : List SrcNode)

mutual

/-- The walk production of the parser on the remaining token list.
A number or string token becomes a leaf and the cursor advances one; an
opening parenthesis starts a CallExpression whose name is the text of
whatever token immediately follows, with no check of that token kind;
any other token is the explicit throw with the token type. -/
def walk : Nat → List Token → Except ParseErr (SrcNode × List Token)
  | 0, _ => .error .outOfFuel
  | _ + 1, [] => .error .unexpectedEndOfInput
  | fuel + 1, t :: rest =>
    if t.type = "number" then .ok (.NumberLiteral t.value, rest)
    else if t.type = "string" then .ok (.stringLiteral t.value, rest)
    else if t.type = "parenthesis" && t.value = "(" then
      match rest with
      | [] => .error .unexpectedEndOfInput
      | nt :: rest2 => walkParams fuel nt.value [] rest2
    else .error (.unexpectedToken t.type)

/-- The parameter loop inside the parenthesis branch of walk: parse
nested expressions until the current token is a closing parenthesis,
then skip it.  An empty remaining list is the out-of-range read of the
source (loop condition on the undefined marker). -/
def walkParams : Nat → String → List SrcNode → List Token → Except ParseErr (SrcNode × List Token)
  | 0, _, _, _ => .error .outOfFuel
  | _ + 1, _, _, [] => .error .unexpectedEndOfInput
  | fuel + 1, nm, acc, t :: rest =>
    if t.type = "parenthesis" && t.value = ")" then
      .ok (.CallExpression nm acc.reverse, rest)
    else do
      let (child, rest2) ← walk fuel (t :: rest)
      walkParams fuel nm (child :: acc) rest2

end

/-- The top-level loop of the parser: repeat walk until the cursor
reaches the end of the token sequence, collecting the results in order. -/
def parserLoop : Nat → List Token → Except ParseErr (List SrcNode)
  | _, [] => .ok []
  | 0, _ :: _ => .error .outOfFuel
  | fuel + 1, t :: rest => do
    let (node, rest2) ← walk (fuel + 1) (t :: rest)
    let nodes ← parserLoop fuel rest2
    .ok (node :: nodes)

/-- Stage 2 of the pipeline: the parser of the source, producing the
Program root.  Twice the token count plus two is enough fuel for the
nesting depth of the recursion. -/
def parser (tokens : List Token) : Except ParseErr SrcNode :=
  (parserLoop (2 * tokens.length + 2) tokens).map SrcNode.Program

/-- Target AST node, the tagged union the transformer builds and the
code generator consumes. -/
inductive TgtNode where
  | Program (body : List TgtNode)
  | ExpressionStatement (expression : TgtNode)
  | CallExpression (callee : TgtNode) (arguments : List TgtNode)
  | Identifier (nm : String)
  | NumberLiteral (value : String)
  | StringLiteral (value : String)

mutual

/-- The traversal of the transformer combined with the visitor, in
functional form: the list returned is exactly the sequence of target
nodes the visitor pushes into the context of the parent for this
subtree, in visit order.  parentIsCall records whether the parent node
is a CallExpression (the test parent.type of the visitor).  The
NumberLiteral and StringLiteral handlers push one leaf; a node tagged
stringLiteral has no visitor entry and falls into the default branch of
the traversal switch, the throw with the node type; a CallExpression
builds its expression, wraps it in an ExpressionStatement unless the
parent is a CallExpression, and its parameters append themselves to its
arguments; a Program pushes nothing to its parent and its children push
into its own context. -/
def nodeTraversal (parentIsCall : Bool) : SrcNode → Except String (List TgtNode)
  | .NumberLiteral v => .ok [.NumberLiteral v]
  | .StringLiteral v => .ok [.StringLiteral v]
  | .stringLiteral _ => .error "stringLiteral"
  | .CallExpression nm params =>
      (arrayTraversal true params).map (fun args =>
        let expression := TgtNode.CallExpression (.Identifier nm) args
        if parentIsCall then [expression] else [.ExpressionStatement expression])
  | .Program body => (arrayTraversal false body).map (fun _ => [])

/-- The arrayTraversal helper of the source: visit each child in order;
the contexts the children push into concatenate in order. -/
def arrayTraversal (parentIsCall : Bool) : List SrcNode → Except String (List TgtNode)
  | [] => .ok []
  | n :: ns => do
      let l ← nodeTraversal parentIsCall n
      let ls ← arrayTraversal parentIsCall ns
      .ok (l ++ ls)

end

/-- Stage 3 of the pipeline: transform sets the context of the root to
the body of the new Program and runs the traversal with a null parent.
A Program root collects what its children push; a literal root pushes
into the null parent (a silent no-op of the optional chaining), except
that a stringLiteral root still hits the default throw of the switch;
a CallExpression root reads parent.type on null and crashes. -/
def transform : SrcNode → Except String TgtNode
  | .Program body => (arrayTraversal false body).map (fun stmts => .Program stmts)
  | .NumberLiteral _ => .ok (.Program [])
  | .StringLiteral _ => .ok (.Program [])
  | .stringLiteral _ => .error "stringLiteral"
  | .CallExpression _ _ => .error "nullParent"

/-- The JavaScript Array.prototype.join: empty list gives the empty
string, a single element is itself, otherwise elements interleaved with
the separator. -/
def joinSep (sep : String) : List String → String
  | [] => ""
  | [x] => x
  | x :: y :: ys => x ++ sep ++ joinSep sep (y :: ys)

mutual

/-- Stage 4 of the pipeline: the code generator, a recursive pretty
printer over the target AST.  Program joins its rendered statements with
a newline, an ExpressionStatement appends a semicolon, a CallExpression
renders callee, parenthesis, the arguments joined with a comma and a
space, an Identifier is its name verbatim, a NumberLiteral its value
verbatim, a StringLiteral its value wrapped in double quotes. -/
def codeGenerator : TgtNode → String
  | .Program body => joinSep "\n" (codeGenList body)
  | .ExpressionStatement e => codeGenerator e ++ ";"
  | .CallExpression callee args =>
      codeGenerator callee ++ "(" ++ joinSep ", " (codeGenList args) ++ ")"
  | .Identifier nm => nm
  | .NumberLiteral v => v
  | .StringLiteral v => "\"" ++ v ++ "\""

/-- The map of the code generator over a node list (the .map calls of
the Program and CallExpression branches). -/
def codeGenList : List TgtNode → List String
  | [] => []
  | n :: ns => codeGenerator n :: codeGenList ns

end

/-- Error of a whole compile call, tagged with the stage that threw. -/
inductive CompileErr where
  | lex (e : LexErr)
  | parse (e : ParseErr)
  | trans (msg : String)
deriving DecidableEq

/-- The single entry point: the four stages composed, each failing fast. -/
def compile (input : String) : Except CompileErr String := do
  let tokens ← (tokenizer input).mapError CompileErr.lex
  let ast ← (parser tokens).mapError CompileErr.parse
  let newAst ← (transform ast).mapError CompileErr.trans
  .ok (codeGenerator newAst)

/-
Specification-side definitions: the matched-quote precondition of the
totality claim, the surface grammar program := expr* in generative form,
and the token, source-AST and target-AST shapes a grammar expression
determines.  These let well-formedness of an input be stated as: the
tokenizer returns exactly the token sequence of some list of grammar
expressions.
-/

/-- Scan of the matched-quote precondition: reading left to right, a
quote character opens a string and must be closed by a later occurrence
of the same quote character; a quote of the other kind inside an open
string is content.  The state is the currently open quote, if any. -/
def quoteScan : Option Char → List Char → Bool
  | none, [] => true
  | some _, [] => false
  | none, c :: cs => quoteScan (if isQuote c then some c else none) cs
  | some q, c :: cs => quoteScan (if c = q then none else some q) cs

/-- Every opening quote character of the input has a matching later
occurrence of the same quote character. -/
def quoteOk (input : String) : Bool := quoteScan none input.data

/-- An expression of the accepted surface grammar:
expr := number | string | call, call := "(" name expr* ")". -/
inductive SurfExpr where
  | num (v : String)
  | str (v : String)
  | call (nm : String) (args : List SurfExpr)

mutual

/-- The token sequence of one grammar expression. -/
def exprTokens : SurfExpr → List Token
  | .num v => [⟨"number", v⟩]
  | .str v => [⟨"string", v⟩]
  | .call nm args =>
      ⟨"parenthesis", "("⟩ :: ⟨"name", nm⟩ :: (exprListTokens args ++ [⟨"parenthesis", ")"⟩])

/-- The token sequence of a list of grammar expressions, concatenated. -/
def exprListTokens : List SurfExpr → List Token
  | [] => []
  | e :: es => exprTokens e ++ exprListTokens es

end

/-- The token sequence of a whole program of the grammar. -/
def tokensOfProgram (es : List SurfExpr) : List Token := exprListTokens es

mutual

/-- The source AST node the parser builds for one grammar expression. -/
def toSrc : SurfExpr → SrcNode
  | .num v => .NumberLiteral v
  | .str v => .stringLiteral v
  | .call nm args => .CallExpression nm (toSrcList args)

/-- The source AST nodes of a list of grammar expressions. -/
def toSrcList : List SurfExpr → List SrcNode
  | [] => []
  | e :: es => toSrc e :: toSrcList es

end

mutual

/-- No string literal occurs in the expression. -/
def strFree : SurfExpr → Bool
  | .num _ => true
  | .str _ => false
  | .call _ args => strFreeList args

/-- No string literal occurs in any expression of the list. -/
def strFreeList : List SurfExpr → Bool
  | [] => true
  | e :: es => strFree e && strFreeList es

end

mutual

/-- The target AST node the transformer builds for one grammar
expression in argument position (parent a CallExpression). -/
def toTgtExpr : SurfExpr → TgtNode
  | .num v => .NumberLiteral v
  | .str v => .StringLiteral v
  | .call nm args => .CallExpression (.Identifier nm) (toTgtList args)

/-- The target AST nodes of a list of grammar expressions. -/
def toTgtList : List SurfExpr → List TgtNode
  | [] => []
  | e :: es => toTgtExpr e :: toTgtList es

end

/-- The target AST node for one grammar expression in top-level position
(parent the Program): a call gains the ExpressionStatement wrapper. -/
def stmtOf : SurfExpr → TgtNode
  | .call nm args => .ExpressionStatement (toTgtExpr (.call nm args))
  | e => toTgtExpr e

/-- The top-level statements of a program of the grammar. -/
def stmtList : List SurfExpr → List TgtNode
  | [] => []
  | e :: es => stmtOf e :: stmtList es

/-- What the tokenizer guarantees of every token it produces: a number
token is a nonempty digit run and a name token is a nonempty letter
run. -/
def TokenWF (t : Token) : Prop :=
  (t.type = "number" → t.value.data ≠ [] ∧ ∀ c ∈ t.value.data, NUMBERS c = true) ∧
  (t.type = "name" → t.value.data ≠ [] ∧ ∀ c ∈ t.value.data, LETTERS c = true)

mutual

/-- Fuel needed by walk on the token sequence of one expression. -/
def walkDepth : SurfExpr → Nat
  | .num _ => 1
  | .str _ => 1
  | .call _ args => 1 + walkParamsDepth args

/-- Fuel needed by walkParams on the token sequences of the argument
list followed by the closing parenthesis. -/
def walkParamsDepth : List SurfExpr → Nat
  | [] => 1
  | e :: es => 1 + max (walkDepth e) (walkParamsDepth es)

end

/-- Fuel needed by parserLoop on the token sequence of a program. -/
def ptDepth : List SurfExpr → Nat
  | [] => 0
  | e :: es => max (walkDepth e) (1 + ptDepth es)

/-
Helper lemmas.
-/

theorem exprTokens_ne_nil (e : SurfExpr) : exprTokens e ≠ [] := by
  cases e <;> simp [exprTokens]

mutual

theorem walkDepth_le (e : SurfExpr) : walkDepth e ≤ 2 * (exprTokens e).length := by
  cases e with
  | num v => simp [walkDepth, exprTokens]
  | str v => simp [walkDepth, exprTokens]
  | call nm args =>
      have h := walkParamsDepth_le args
      simp only [walkDepth, exprTokens, List.length_cons, List.length_append]
      omega

theorem walkParamsDepth_le (es : List SurfExpr) :
    walkParamsDepth es ≤ 2 * (exprListTokens es).length + 1 := by
  cases es with
  | nil => simp [walkParamsDepth, exprListTokens]
  | cons e es =>
      have h1 := walkDepth_le e
      have h2 := walkParamsDepth_le es
      have h4 : 1 ≤ (exprTokens e).length := List.length_pos.mpr (exprTokens_ne_nil e)
      simp only [walkParamsDepth, exprListTokens, List.length_append]
      omega

end

theorem ptDepth_le (es : List SurfExpr) : ptDepth es ≤ 2 * (exprListTokens es).length + 2 := by
  induction es with
  | nil => simp [ptDepth]
  | cons e es ih =>
      have h1 := walkDepth_le e
      have h4 : 1 ≤ (exprTokens e).length := List.length_pos.mpr (exprTokens_ne_nil e)
      simp only [ptDepth, exprListTokens, List.length_append]
      omega

theorem walkDepth_pos (e : SurfExpr) : 1 ≤ walkDepth e := by
  cases e <;> simp [walkDepth]

theorem walkParamsDepth_pos (es : List SurfExpr) : 1 ≤ walkParamsDepth es := by
  cases es <;> simp [walkParamsDepth]

theorem exprTokens_head_not_close (e : SurfExpr) :
    ∃ t l, exprTokens e = t :: l ∧ (t.type = "parenthesis" && t.value = ")") = false := by
  cases e with
  | num v => exact ⟨_, _, rfl, by simp⟩
  | str v => exact ⟨_, _, rfl, by simp⟩
  | call nm args => exact ⟨_, _, rfl, by simp⟩

theorem walkParams_step (f : Nat) (nm : String) (acc : List SrcNode) (t : Token)
    (rest : List Token) (h : (t.type = "parenthesis" && t.value = ")") = false) :
    walkParams (f + 1) nm acc (t :: rest) =
      (walk f (t :: rest)).bind fun x => walkParams f nm (x.1 :: acc) x.2 := by
  rw [walkParams, if_neg]
  · rfl
  · simp [h]

/-- Correctness of walk and walkParams on token sequences of the
grammar, by induction on the fuel: with fuel at least the depth of the
expression, walk consumes exactly its token sequence and returns its
source AST node. -/
theorem walkOk (f : Nat) :
    (∀ e rest, walkDepth e ≤ f → walk f (exprTokens e ++ rest) = .ok (toSrc e, rest)) ∧
    (∀ es nm acc rest, walkParamsDepth es ≤ f →
      walkParams f nm acc (exprListTokens es ++ ⟨"parenthesis", ")"⟩ :: rest) =
        .ok (.CallExpression nm (acc.reverse ++ toSrcList es), rest)) := by
  induction f with
  | zero =>
      constructor
      · intro e rest h; exact absurd h (by have := walkDepth_pos e; omega)
      · intro es nm acc rest h; exact absurd h (by have := walkParamsDepth_pos es; omega)
  | succ f ih =>
      obtain ⟨ihw, ihp⟩ := ih
      constructor
      · intro e rest h
        cases e with
        | num v => simp [exprTokens, walk, toSrc]
        | str v => simp [exprTokens, walk, toSrc]
        | call nm args =>
            have hd : walkParamsDepth args ≤ f := by
              simp only [walkDepth] at h; omega
            simp only [exprTokens, toSrc, List.cons_append, List.append_assoc,
              List.singleton_append]
            rw [walk]
            simp only []
            exact ihp args nm [] rest hd
      · intro es nm acc rest h
        cases es with
        | nil =>
            simp only [exprListTokens, toSrcList, List.nil_append, List.append_nil]
            simp [walkParams]
        | cons e es =>
            have hde : walkDepth e ≤ f := by
              simp only [walkParamsDepth] at h; omega
            have hdes : walkParamsDepth es ≤ f := by
              simp only [walkParamsDepth] at h; omega
            obtain ⟨t, l, het, hcond⟩ := exprTokens_head_not_close e
            have hlist : exprListTokens (e :: es) ++ ⟨"parenthesis", ")"⟩ :: rest =
                t :: (l ++ (exprListTokens es ++ ⟨"parenthesis", ")"⟩ :: rest)) := by
              simp [exprListTokens, het]
            rw [hlist, walkParams_step f nm acc t _ hcond]
            have hw := ihw e (exprListTokens es ++ ⟨"parenthesis", ")"⟩ :: rest) hde
            rw [het] at hw
            simp only [List.cons_append] at hw
            rw [hw]
            simp only [Except.bind]
            rw [ihp es nm (toSrc e :: acc) rest hdes]
            simp [toSrcList, List.reverse_cons, List.append_assoc]

theorem parserLoop_nil (f : Nat) : parserLoop f [] = .ok [] := by
  cases f <;> rfl

theorem bind_ok_reduce {α β ε : Type} (a : α) (g : α → Except ε β) :
    ((Except.ok a : Except ε α) >>= g) = g a := rfl

/-- Correctness of the top-level parser loop on the token sequence of a
program of the grammar. -/
theorem parserLoop_ok (es : List SurfExpr) : ∀ f, ptDepth es ≤ f →
    parserLoop f (exprListTokens es) = .ok (toSrcList es) := by
  induction es with
  | nil => intro f _; simp [exprListTokens, toSrcList, parserLoop_nil]
  | cons e es ih =>
      intro f h
      have hf1 : 1 ≤ f := by
        have := walkDepth_pos e; simp only [ptDepth] at h; omega
      obtain ⟨f', rfl⟩ : ∃ f', f = f' + 1 := ⟨f - 1, by omega⟩
      have hde : walkDepth e ≤ f' + 1 := by simp only [ptDepth] at h; omega
      have hdes : ptDepth es ≤ f' := by simp only [ptDepth] at h; omega
      obtain ⟨t, l, het, _⟩ := exprTokens_head_not_close e
      have hlist : exprListTokens (e :: es) = t :: (l ++ exprListTokens es) := by
        simp [exprListTokens, het]
      rw [hlist, parserLoop]
      have hw := (walkOk (f' + 1)).1 e (exprListTokens es) hde
      rw [het] at hw
      simp only [List.cons_append] at hw
      rw [hw]
      simp only [bind_ok_reduce]
      rw [ih f' hdes]
      simp only [bind_ok_reduce]
      simp [toSrcList]

/-- The parser on the token sequence of a program of the grammar
returns exactly the corresponding Program node. -/
theorem parser_ok (es : List SurfExpr) :
    parser (tokensOfProgram es) = .ok (.Program (toSrcList es)) := by
  have hd := ptDepth_le es
  have h := parserLoop_ok es (2 * (exprListTokens es).length + 2) (by omega)
  simp [parser, tokensOfProgram, h, Except.map]

mutual

/-- The traversal on the source node of a string-free grammar expression
in argument position builds exactly its target expression. -/
theorem travGen (e : SurfExpr) (h : strFree e = true) :
    nodeTraversal true (toSrc e) = .ok [toTgtExpr e] := by
  cases e with
  | num v => simp [toSrc, nodeTraversal, toTgtExpr]
  | str v => simp [strFree] at h
  | call nm args =>
      have hl : strFreeList args = true := by simpa [strFree] using h
      rw [toSrc, nodeTraversal, travGenList args hl]
      simp [toTgtExpr, Except.map]

/-- The traversal on a list of source nodes of string-free grammar
expressions in argument position builds exactly their target nodes. -/
theorem travGenList (es : List SurfExpr) (h : strFreeList es = true) :
    arrayTraversal true (toSrcList es) = .ok (toTgtList es) := by
  cases es with
  | nil => simp [toSrcList, arrayTraversal, toTgtList]
  | cons e es =>
      have h12 : strFree e = true ∧ strFreeList es = true := by
        simpa [strFreeList, Bool.and_eq_true] using h
      rw [toSrcList, arrayTraversal, travGen e h12.1]
      simp only [bind_ok_reduce]
      rw [travGenList es h12.2]
      simp only [bind_ok_reduce]
      simp [toTgtList]

end

/-- The traversal on the source node of a string-free grammar expression
in top-level position builds exactly its target statement. -/
theorem stmtGen (e : SurfExpr) (h : strFree e = true) :
    nodeTraversal false (toSrc e) = .ok [stmtOf e] := by
  cases e with
  | num v => simp [toSrc, nodeTraversal, stmtOf, toTgtExpr]
  | str v => simp [strFree] at h
  | call nm args =>
      have hl : strFreeList args = true := by simpa [strFree] using h
      rw [toSrc, nodeTraversal, travGenList args hl]
      simp [stmtOf, toTgtExpr, Except.map]

theorem arrayFalse (es : List SurfExpr) (h : strFreeList es = true) :
    arrayTraversal false (toSrcList es) = .ok (stmtList es) := by
  induction es with
  | nil => simp [toSrcList, arrayTraversal, stmtList]
  | cons e es ih =>
      have h12 : strFree e = true ∧ strFreeList es = true := by
        simpa [strFreeList, Bool.and_eq_true] using h
      rw [toSrcList, arrayTraversal, stmtGen e h12.1]
      simp only [bind_ok_reduce]
      rw [ih h12.2]
      simp only [bind_ok_reduce]
      simp [stmtList]

/-- The transformer on the parser output for a string-free program of
the grammar builds exactly the target Program. -/
theorem transform_ok (es : List SurfExpr) (h : strFreeList es = true) :
    transform (.Program (toSrcList es)) = .ok (.Program (stmtList es)) := by
  rw [transform, arrayFalse es h]
  rfl

theorem map_eq_ok {α β ε : Type} (g : α → β) (r : Except ε α) (b : β) :
    r.map g = .ok b ↔ ∃ a, r = .ok a ∧ b = g a := by
  cases r with
  | error e => simp [Except.map]
  | ok a =>
      simp [Except.map]
      exact eq_comm

/-- Soundness of the tokenizer: every token an ok run produces is
wellformed, in particular number tokens are nonempty digit runs and
name tokens are nonempty letter runs. -/
theorem tokenizerLoop_sound (f : Nat) : ∀ cs ts, tokenizerLoop f cs = .ok ts →
    ∀ t ∈ ts, TokenWF t := by
  induction f with
  | zero =>
      intro cs ts h t ht
      cases cs with
      | nil =>
          simp only [tokenizerLoop] at h
          cases h
          simp at ht
      | cons c cs => simp [tokenizerLoop] at h
  | succ f ih =>
      intro cs ts h t ht
      cases cs with
      | nil =>
          simp only [tokenizerLoop] at h
          cases h
          simp at ht
      | cons c cs =>
          rw [tokenizerLoop] at h
          split at h
          next hg1 =>
            rw [map_eq_ok] at h
            obtain ⟨ts', hrec, rfl⟩ := h
            rcases List.mem_cons.mp ht with rfl | hmem
            · exact ⟨fun h' => absurd h' (by simp), fun h' => absurd h' (by simp)⟩
            · exact ih _ _ hrec t hmem
          next hg1 =>
            split at h
            next hg2 => exact ih _ _ h t ht
            next hg2 =>
              split at h
              next hg3 =>
                rw [map_eq_ok] at h
                obtain ⟨ts', hrec, rfl⟩ := h
                rcases List.mem_cons.mp ht with rfl | hmem
                · refine ⟨fun _ => ⟨by simp, ?_⟩, fun h' => absurd h' (by simp)⟩
                  intro d hd
                  rcases List.mem_cons.mp hd with rfl | hmem2
                  · exact hg3
                  · exact List.mem_takeWhile_imp hmem2
                · exact ih _ _ hrec t hmem
              next hg3 =>
                split at h
                next hg4 =>
                  split at h
                  next hg5 =>
                    rw [map_eq_ok] at h
                    obtain ⟨ts', hrec, rfl⟩ := h
                    rcases List.mem_cons.mp ht with rfl | hmem
                    · exact ⟨fun h' => absurd h' (by simp), fun h' => absurd h' (by simp)⟩
                    · exact ih _ _ hrec t hmem
                  next hg5 => exact Except.noConfusion h
                next hg4 =>
                  split at h
                  next hg5 =>
                    split at h
                    next hg6 => exact Except.noConfusion h
                    next hg6 =>
                      rw [map_eq_ok] at h
                      obtain ⟨ts', hrec, rfl⟩ := h
                      rcases List.mem_cons.mp ht with rfl | hmem
                      · refine ⟨fun h' => absurd h' (by simp), fun _ => ⟨by simp, ?_⟩⟩
                        intro d hd
                        rcases List.mem_cons.mp hd with rfl | hmem2
                        · exact hg5
                        · exact List.mem_takeWhile_imp hmem2
                      · exact ih _ _ hrec t hmem
                  next hg5 => exact Except.noConfusion h

theorem ne_empty_of_data_ne_nil {s : String} (h : s.data ≠ []) : s ≠ "" := by
  intro he
  rw [he] at h
  exact h rfl

theorem tokenWF_number {t : Token} (hwf : TokenWF t) (h : t.type = "number") :
    t.value.data ≠ [] ∧ ∀ c ∈ t.value.data, NUMBERS c = true := hwf.1 h

theorem tokenWF_name {t : Token} (hwf : TokenWF t) (h : t.type = "name") :
    t.value.data ≠ [] ∧ ∀ c ∈ t.value.data, LETTERS c = true := hwf.2 h

theorem exprTokens_mem_list {es : List SurfExpr} {e : SurfExpr} (he : e ∈ es) {t : Token}
    (ht : t ∈ exprTokens e) : t ∈ exprListTokens es := by
  induction es with
  | nil => cases he
  | cons x xs ih =>
      rw [exprListTokens]
      rcases List.mem_cons.mp he with rfl | hmem
      · exact List.mem_append_left _ ht
      · exact List.mem_append_right _ (ih hmem)

theorem argTokens_mem_call {nm : String} {args : List SurfExpr} {t : Token}
    (ht : t ∈ exprListTokens args) : t ∈ exprTokens (.call nm args) := by
  rw [exprTokens]
  exact List.mem_cons_of_mem _ (List.mem_cons_of_mem _ (List.mem_append_left _ ht))

mutual

/-- The rendering of a string-free grammar expression contains no
newline character: calls render as letters of the callee name and
punctuation, numbers as their digit run. -/
theorem genExprClean (e : SurfExpr) (hsf : strFree e = true)
    (hwf : ∀ t ∈ exprTokens e, TokenWF t) :
    '\n' ∉ (codeGenerator (toTgtExpr e)).data := by
  cases e with
  | num v =>
      have h := tokenWF_number (hwf ⟨"number", v⟩ (by simp [exprTokens])) rfl
      simp only [toTgtExpr, codeGenerator]
      intro hmem
      exact absurd (h.2 _ hmem) (by decide)
  | str v => simp [strFree] at hsf
  | call nm args =>
      have hl : strFreeList args = true := by simpa [strFree] using hsf
      have hnm := tokenWF_name (hwf ⟨"name", nm⟩ (by simp [exprTokens])) rfl
      have hargswf : ∀ t ∈ exprListTokens args, TokenWF t :=
        fun t ht => hwf t (argTokens_mem_call ht)
      have hrec := genListClean args hl hargswf
      simp only [toTgtExpr, codeGenerator]
      intro hmem
      simp only [String.data_append, List.mem_append] at hmem
      rcases hmem with ((hmem | hmem) | hmem) | hmem
      · exact absurd (hnm.2 _ hmem) (by decide)
      · simp at hmem
      · exact hrec hmem
      · simp at hmem

/-- The comma-joined renderings of a list of string-free grammar
expressions contain no newline character. -/
theorem genListClean (es : List SurfExpr) (hsf : strFreeList es = true)
    (hwf : ∀ t ∈ exprListTokens es, TokenWF t) :
    '\n' ∉ (joinSep ", " (codeGenList (toTgtList es))).data := by
  cases es with
  | nil => simp [toTgtList, codeGenList, joinSep]
  | cons e es =>
      have h12 : strFree e = true ∧ strFreeList es = true := by
        simpa [strFreeList, Bool.and_eq_true] using hsf
      have hewf : ∀ t ∈ exprTokens e, TokenWF t := by
        intro t ht
        apply hwf t
        rw [exprListTokens]
        exact List.mem_append_left _ ht
      have heswf : ∀ t ∈ exprListTokens es, TokenWF t := by
        intro t ht
        apply hwf t
        rw [exprListTokens]
        exact List.mem_append_right _ ht
      have h1 := genExprClean e h12.1 hewf
      have h2 := genListClean es h12.2 heswf
      cases es with
      | nil =>
          simp only [toTgtList, codeGenList, joinSep]
          exact h1
      | cons e2 es2 =>
          simp only [toTgtList, codeGenList, joinSep] at h2 ⊢
          intro hmem
          simp only [String.data_append, List.mem_append] at hmem
          rcases hmem with (hmem | hmem) | hmem
          · exact h1 hmem
          · simp at hmem
          · exact h2 (by simpa [String.data_append] using hmem)

end

/-- The rendering of a string-free grammar expression in top-level
position is a nonempty line: nonempty, and free of newline characters. -/
theorem lineClean (e : SurfExpr) (hsf : strFree e = true)
    (hwf : ∀ t ∈ exprTokens e, TokenWF t) :
    codeGenerator (stmtOf e) ≠ "" ∧ '\n' ∉ (codeGenerator (stmtOf e)).data := by
  cases e with
  | num v =>
      have h := tokenWF_number (hwf ⟨"number", v⟩ (by simp [exprTokens])) rfl
      constructor
      · simp only [stmtOf, toTgtExpr, codeGenerator]
        exact ne_empty_of_data_ne_nil h.1
      · simp only [stmtOf, toTgtExpr, codeGenerator]
        intro hmem
        exact absurd (h.2 _ hmem) (by decide)
  | str v => simp [strFree] at hsf
  | call nm args =>
      have hl : strFreeList args = true := by simpa [strFree] using hsf
      have hnm := tokenWF_name (hwf ⟨"name", nm⟩ (by simp [exprTokens])) rfl
      have hargswf : ∀ t ∈ exprListTokens args, TokenWF t :=
        fun t ht => hwf t (argTokens_mem_call ht)
      have hrec := genListClean args hl hargswf
      constructor
      · simp only [stmtOf, toTgtExpr, codeGenerator]
        apply ne_empty_of_data_ne_nil
        simp [String.data_append]
      · simp only [stmtOf, toTgtExpr, codeGenerator]
        intro hmem
        simp only [String.data_append, List.mem_append] at hmem
        rcases hmem with (((hmem | hmem) | hmem) | hmem) | hmem
        · exact absurd (hnm.2 _ hmem) (by decide)
        · simp at hmem
        · exact hrec hmem
        · simp at hmem
        · simp at hmem

theorem codeGenList_stmtList_length (es : List SurfExpr) :
    (codeGenList (stmtList es)).length = es.length := by
  induction es with
  | nil => rfl
  | cons e es ih => simp [stmtList, codeGenList, ih]

/-- Every rendered top-level line of a string-free program of the
grammar is nonempty and free of newline characters. -/
theorem linesClean (es : List SurfExpr) (hsf : strFreeList es = true)
    (hwf : ∀ t ∈ exprListTokens es, TokenWF t) :
    ∀ l ∈ codeGenList (stmtList es), l ≠ "" ∧ '\n' ∉ l.data := by
  induction es with
  | nil => simp [stmtList, codeGenList]
  | cons e es ih =>
      have h12 : strFree e = true ∧ strFreeList es = true := by
        simpa [strFreeList, Bool.and_eq_true] using hsf
      have hewf : ∀ t ∈ exprTokens e, TokenWF t := by
        intro t ht
        apply hwf t
        rw [exprListTokens]
        exact List.mem_append_left _ ht
      have heswf : ∀ t ∈ exprListTokens es, TokenWF t := by
        intro t ht
        apply hwf t
        rw [exprListTokens]
        exact List.mem_append_right _ ht
      intro l hl
      rw [stmtList, codeGenList] at hl
      rcases List.mem_cons.mp hl with rfl | hmem
      · exact lineClean e h12.1 hewf
      · exact ih h12.2 heswf l hmem

theorem data_ne_nil_of_ne_empty {s : String} (h : s ≠ "") : s.data ≠ [] := fun hd =>
  h (String.ext hd)

theorem joinSep_cons_ne_empty {l : String} (h : l ≠ "") (sep : String) (rest : List String) :
    joinSep sep (l :: rest) ≠ "" := by
  cases rest with
  | nil => exact h
  | cons x xs =>
      rw [joinSep]
      apply ne_empty_of_data_ne_nil
      simp only [String.data_append]
      intro hc
      rcases List.append_eq_nil.mp hc with ⟨hc1, _⟩
      rcases List.append_eq_nil.mp hc1 with ⟨hc3, _⟩
      exact data_ne_nil_of_ne_empty h hc3

theorem numbers_not_paren {d : Char} (h : NUMBERS d = true) :
    (d = '(' || d = ')') = false := by
  rw [NUMBERS, Bool.and_eq_true, decide_eq_true_eq, decide_eq_true_eq] at h
  obtain ⟨h1, h2⟩ := h
  by_contra hne
  rw [Bool.not_eq_false, Bool.or_eq_true, decide_eq_true_eq, decide_eq_true_eq] at hne
  rcases hne with h | h
  · subst h; exact absurd h1 (by decide)
  · subst h; exact absurd h1 (by decide)

theorem numbers_not_ws {d : Char} (h : NUMBERS d = true) : WHITESPACE d = false := by
  rw [NUMBERS, Bool.and_eq_true, decide_eq_true_eq, decide_eq_true_eq] at h
  obtain ⟨h1, h2⟩ := h
  by_contra hne
  rw [Bool.not_eq_false, WHITESPACE] at hne
  simp only [Bool.or_eq_true, Bool.and_eq_true, decide_eq_true_eq] at hne
  rcases hne with
    (((((((((((((h | h) | h) | h) | h) | h) | h) | h) | ⟨ha, hb⟩) | h) | h) | h) | h) | h) | h
  all_goals first
    | (subst h; exact absurd h1 (by decide))
    | (subst h; exact absurd h2 (by decide))
    | (exact absurd (le_trans ha h2) (by decide))

theorem takeWhile_append_all {p : Char → Bool} :
    ∀ l r : List Char, (∀ c ∈ l, p c = true) → (l ++ r).takeWhile p = l ++ r.takeWhile p := by
  intro l r h
  induction l with
  | nil => simp
  | cons c l ih =>
      rw [List.cons_append, List.takeWhile_cons_of_pos (h c (by simp)), List.cons_append]
      rw [ih (fun d hd => h d (by simp [hd]))]

theorem dropWhile_append_all {p : Char → Bool} :
    ∀ l r : List Char, (∀ c ∈ l, p c = true) → (l ++ r).dropWhile p = r.dropWhile p := by
  intro l r h
  induction l with
  | nil => simp
  | cons c l ih =>
      rw [List.cons_append, List.dropWhile_cons_of_pos (h c (by simp))]
      exact ih (fun d hd => h d (by simp [hd]))

theorem takeWhile_head_false {p : Char → Bool} (r : List Char)
    (h : ∀ c, r.head? = some c → p c = false) : r.takeWhile p = [] := by
  cases r with
  | nil => rfl
  | cons c rs => rw [List.takeWhile_cons_of_neg (by simp [h c rfl])]

theorem dropWhile_head_false {p : Char → Bool} (r : List Char)
    (h : ∀ c, r.head? = some c → p c = false) : r.dropWhile p = r := by
  cases r with
  | nil => rfl
  | cons c rs => rw [List.dropWhile_cons_of_neg (by simp [h c rfl])]

/-- The digit-run branch of the tokenizer, stated for any scan position:
a maximal nonempty digit run at the front of the remaining input yields
one number token whose text is exactly that run, and scanning resumes
right after it. -/
theorem tokenizerLoop_digitRun (f : Nat) (ds rest : List Char) (hne : ds ≠ [])
    (hds : ∀ c ∈ ds, NUMBERS c = true)
    (hrest : ∀ c, rest.head? = some c → NUMBERS c = false) :
    tokenizerLoop (f + 1) (ds ++ rest) =
      (tokenizerLoop f rest).map (fun ts => ⟨"number", String.mk ds⟩ :: ts) := by
  obtain ⟨d, ds2, rfl⟩ : ∃ d ds2, ds = d :: ds2 := by
    cases ds with
    | nil => exact absurd rfl hne
    | cons d ds2 => exact ⟨d, ds2, rfl⟩
  have hd : NUMBERS d = true := hds d (by simp)
  have hds2 : ∀ c ∈ ds2, NUMBERS c = true := fun c hc => hds c (by simp [hc])
  rw [List.cons_append, tokenizerLoop]
  rw [if_neg (by rw [numbers_not_paren hd]; exact Bool.false_ne_true)]
  rw [if_neg (by rw [numbers_not_ws hd]; exact Bool.false_ne_true)]
  rw [if_pos hd]
  rw [takeWhile_append_all ds2 rest hds2, takeWhile_head_false rest hrest]
  rw [dropWhile_append_all ds2 rest hds2, dropWhile_head_false rest hrest]
  rw [List.append_nil]

theorem mapError_ok {α ε ε2 : Type} (g : ε → ε2) (a : α) :
    (Except.ok a : Except ε α).mapError g = .ok a := rfl

/-- The whole pipeline on a wellformed string-free input: with the
token sequence of a program of the grammar as tokenizer output, compile
renders the joined top-level statements. -/
theorem compile_wf (s : String) (es : List SurfExpr)
    (htok : tokenizer s = .ok (tokensOfProgram es)) (hsf : strFreeList es = true) :
    compile s = .ok (joinSep "\n" (codeGenList (stmtList es))) := by
  rw [compile, htok]
  simp only [mapError_ok, bind_ok_reduce]
  rw [parser_ok es]
  simp only [mapError_ok, bind_ok_reduce]
  rw [transform_ok es hsf]
  simp only [mapError_ok, bind_ok_reduce]
  rw [codeGenerator]

/-- The tokenizer skips a whitespace-only input entirely and produces no
tokens. -/
theorem tokenizerLoop_ws : ∀ (cs : List Char) (f : Nat), cs.length ≤ f →
    (∀ c ∈ cs, WHITESPACE c = true) → tokenizerLoop f cs = .ok [] := by
  intro cs
  induction cs with
  | nil => intro f _ _; cases f <;> rfl
  | cons c cs ih =>
      intro f hf hws
      obtain ⟨f2, rfl⟩ : ∃ f2, f = f2 + 1 := by
        cases f with
        | zero => simp at hf
        | succ f2 => exact ⟨f2, rfl⟩
      have hc : WHITESPACE c = true := hws c (by simp)
      rw [tokenizerLoop]
      rw [if_neg ?hpar, if_pos hc]
      case hpar =>
        intro hp
        rw [Bool.or_eq_true, decide_eq_true_eq, decide_eq_true_eq] at hp
        rcases hp with h1 | h1
        · subst h1
          exact absurd hc (by decide)
        · subst h1
          exact absurd hc (by decide)
      exact ih f2 (by simp at hf; omega) (fun d hd => hws d (by simp [hd]))

theorem tokenizer_ws (s : String) (h : ∀ c ∈ s.data, WHITESPACE c = true) :
    tokenizer s = .ok [] :=
  tokenizerLoop_ws s.data s.data.length le_rfl h

theorem compile_ws (s : String) (h : ∀ c ∈ s.data, WHITESPACE c = true) :
    compile s = .ok "" := by
  rw [compile, tokenizer_ws s h]
  rfl

/-- The tokenizer on a one-call input whose only argument is an
arbitrary digit run records the full run verbatim as one number
token. -/
theorem tokenizer_digitcall (v : String) (hne : v.data ≠ [])
    (hv : ∀ c ∈ v.data, NUMBERS c = true) :
    tokenizer ("(f " ++ v ++ ")") = .ok (tokensOfProgram [.call "f" [.num v]]) := by
  have hdata : ("(f " ++ v ++ ")").data = '(' :: 'f' :: ' ' :: (v.data ++ [')']) := by
    simp only [String.data_append, List.append_assoc]
    rfl
  have hmk : String.mk v.data = v := String.ext rfl
  have hform : tokensOfProgram [SurfExpr.call "f" [.num v]] =
      [⟨"parenthesis", "("⟩, ⟨"name", "f"⟩, ⟨"number", v⟩, ⟨"parenthesis", ")"⟩] := by
    simp [tokensOfProgram, exprListTokens, exprTokens]
  rw [tokenizer, hdata]
  have hlen : (('(' :: 'f' :: ' ' :: (v.data ++ [')'])) : List Char).length =
      v.data.length + 4 := by
    simp [List.length_append]
  rw [hlen, hform]
  have s1 : tokenizerLoop (v.data.length + 4) ('(' :: 'f' :: ' ' :: (v.data ++ [')'])) =
      (tokenizerLoop (v.data.length + 3) ('f' :: ' ' :: (v.data ++ [')']))).map
        (fun ts => ⟨"parenthesis", "("⟩ :: ts) := rfl
  have s2 : tokenizerLoop (v.data.length + 3) ('f' :: ' ' :: (v.data ++ [')'])) =
      (tokenizerLoop (v.data.length + 2) (' ' :: (v.data ++ [')']))).map
        (fun ts => ⟨"name", "f"⟩ :: ts) := rfl
  have s3 : tokenizerLoop (v.data.length + 2) (' ' :: (v.data ++ [')'])) =
      tokenizerLoop (v.data.length + 1) (v.data ++ [')']) := rfl
  have s4 := tokenizerLoop_digitRun v.data.length v.data [')'] hne hv
    (fun c hc => by simp at hc; subst hc; decide)
  have s5 : tokenizerLoop v.data.length [')'] = .ok [⟨"parenthesis", ")"⟩] := by
    obtain ⟨m, hm⟩ : ∃ m, v.data.length = m + 1 := by
      cases hv0 : v.data with
      | nil => exact absurd hv0 hne
      | cons a l => exact ⟨l.length, by simp [hv0]⟩
    rw [hm]
    have hnil : tokenizerLoop m ([] : List Char) = .ok [] := by cases m <;> rfl
    rw [show tokenizerLoop (m + 1) [')'] =
        (tokenizerLoop m []).map (fun ts => ⟨"parenthesis", ")"⟩ :: ts) from rfl, hnil]
    rfl
  rw [s1, s2, s3, s4, s5, hmk]
  rfl

/-- End to end digit preservation: compiling a call with an arbitrary
digit-run argument emits the digit text verbatim, whatever its length
and leading zeros. -/
theorem compile_digitcall (v : String) (hne : v.data ≠ [])
    (hv : ∀ c ∈ v.data, NUMBERS c = true) :
    compile ("(f " ++ v ++ ")") = .ok ("f(" ++ v ++ ");") := by
  have htok := tokenizer_digitcall v hne hv
  have hwf := compile_wf ("(f " ++ v ++ ")") [.call "f" [.num v]] htok
    (by simp [strFreeList, strFree])
  rw [hwf]
  have hout : joinSep "\n" (codeGenList (stmtList [SurfExpr.call "f" [.num v]])) =
      "f(" ++ v ++ ");" := by
    simp only [stmtList, stmtOf, toTgtExpr, toTgtList, codeGenList, codeGenerator, joinSep]
    apply String.ext
    simp only [String.data_append, List.append_assoc]
    rfl
  rw [hout]

/-
Claim theorems.
-/

/-- Claim C1: the specification says the input with two double-quoted
string arguments compiles to the rendered call with double-quoted
arguments.  The code instead throws in the transform stage: the parser
tags string nodes stringLiteral while the visitor and the traversal
switch only handle StringLiteral, so the node falls into the default
branch and the traversal throws the unhandled-kind error.  This theorem
evaluates the pipeline at the failing input: the lexer produces the
expected tokens, and compile fails with the transform error carrying
the unhandled tag, instead of returning the specified output string. -/
theorem claim_C1 :
    tokenizer "(concat \"foo\" \"bar\")" = .ok [⟨"parenthesis", "("⟩, ⟨"name", "concat"⟩,
      ⟨"string", "foo"⟩, ⟨"string", "bar"⟩, ⟨"parenthesis", ")"⟩] ∧
    compile "(concat \"foo\" \"bar\")" = .error (.trans "stringLiteral") :=
  ⟨by decide, by decide⟩

/-- Claim C2: the specification says the unhandled-node-kind branch of
the traversal is unreachable on parser output.  It is reachable: the
parser itself produces nodes tagged stringLiteral (for any string token,
here from the source text of a single string literal), and the traversal
throws the unhandled-kind error exactly on that tag.  This theorem
evaluates the two stages at the failing AST. -/
theorem claim_C2 :
    tokenizer "\"foo\"" = .ok [⟨"string", "foo"⟩] ∧
    parser [⟨"string", "foo"⟩] = .ok (.Program [.stringLiteral "foo"]) ∧
    transform (.Program [.stringLiteral "foo"]) = .error "stringLiteral" :=
  ⟨by decide, rfl, rfl⟩

/-- Claim C3: on the unbalanced input the parser runs out of tokens
while a call expression is still open and the whole compile call fails
with the end-of-input parse error, at no earlier or later stage: the
lexer succeeds, and the failure is the parse error. -/
theorem claim_C3 :
    tokenizer "(add 2" = .ok [⟨"parenthesis", "("⟩, ⟨"name", "add"⟩, ⟨"number", "2"⟩] ∧
    parser [⟨"parenthesis", "("⟩, ⟨"name", "add"⟩, ⟨"number", "2"⟩] =
      .error .unexpectedEndOfInput ∧
    compile "(add 2" = .error (.parse .unexpectedEndOfInput) :=
  ⟨by decide, rfl, by decide⟩

/-- Claim C4: the specification claims the tokenizer terminates whenever
every opening quote has a matching later occurrence of the same quote
character.  The input consisting of one letter run reaching the end of
the input has no quotes at all, so the precondition holds, yet the
letter-run loop of the source never terminates on it: past the end of
the input the test LETTERS.test(char) coerces the undefined marker to
the string "undefined", which contains letters, so the loop never
exits.  The model marks that infinite loop with the runawayName error,
and this theorem evaluates the tokenizer at the failing input. -/
theorem claim_C4 :
    quoteOk "abc" = true ∧ tokenizer "abc" = .error .runawayName ∧
    quoteOk "ab " = true ∧ tokenizer "ab " = .ok [⟨"name", "ab"⟩] :=
  ⟨by decide, by decide, by decide, by decide⟩

/-- Claim C5 counterexample: the claim quantifies over every well-formed
input of the grammar program := expr*.  The empty program is
well-formed and compiles to the empty string, not a non-empty one; and
the well-formed program consisting of one top-level string literal does
not compile at all (the transform stage throws on the stringLiteral
tag), so compile does not even return a string there. -/
theorem claim_C5_counterexample :
    compile "" = .ok "" ∧
    tokenizer "\"hi\"" = .ok (tokensOfProgram [.str "hi"]) ∧
    compile "\"hi\"" = .error (.trans "stringLiteral") :=
  ⟨by decide, by decide, by decide⟩

/-- Claim C5 (amended): for every well-formed input with at least one
top-level expression and no string literal (well-formedness stated as:
the tokenizer returns exactly the token sequence of a program of the
grammar), compile returns a non-empty string that is the join of one
non-empty newline-free line per top-level expression. -/
theorem claim_C5 (s : String) (es : List SurfExpr)
    (htok : tokenizer s = .ok (tokensOfProgram es)) (hne : es ≠ [])
    (hsf : strFreeList es = true) :
    ∃ lines : List String,
      compile s = .ok (joinSep "\n" lines) ∧
      joinSep "\n" lines ≠ "" ∧
      lines.length = es.length ∧
      ∀ l ∈ lines, l ≠ "" ∧ '\n' ∉ l.data := by
  have hwfall : ∀ t ∈ exprListTokens es, TokenWF t := fun t ht =>
    tokenizerLoop_sound s.data.length s.data (tokensOfProgram es) htok t ht
  have hlines := linesClean es hsf hwfall
  refine ⟨codeGenList (stmtList es), compile_wf s es htok hsf, ?_,
    codeGenList_stmtList_length es, hlines⟩
  obtain ⟨e, es2, rfl⟩ : ∃ e es2, es = e :: es2 := by
    cases es with
    | nil => exact absurd rfl hne
    | cons e es2 => exact ⟨e, es2, rfl⟩
  have hcons : codeGenList (stmtList (e :: es2)) =
      codeGenerator (stmtOf e) :: codeGenList (stmtList es2) := by
    simp [stmtList, codeGenList]
  rw [hcons]
  apply joinSep_cons_ne_empty
  exact (hlines (codeGenerator (stmtOf e)) (by rw [hcons]; exact List.mem_cons_self _ _)).1

/-- Claim C5 witness: the amended claim at the concrete input of one
call with two number arguments. -/
theorem claim_C5_witness :
    ∃ lines : List String,
      compile "(add 2 3)" = .ok (joinSep "\n" lines) ∧
      joinSep "\n" lines ≠ "" ∧
      lines.length = ([SurfExpr.call "add" [.num "2", .num "3"]] : List SurfExpr).length ∧
      ∀ l ∈ lines, l ≠ "" ∧ '\n' ∉ l.data :=
  claim_C5 "(add 2 3)" [.call "add" [.num "2", .num "3"]] (by decide) (by simp) (by decide)

/-- Claim C6: the traversal never wraps a call whose parent is a
CallExpression in an ExpressionStatement (it appends the bare call to
the arguments of the parent), it always wraps a call whose parent is not
a CallExpression, and on the concrete nested input compile renders the
nested call inline with a single trailing semicolon. -/
theorem claim_C6 :
    (∀ nm params r, nodeTraversal true (.CallExpression nm params) = .ok r →
      ∃ args, r = [TgtNode.CallExpression (.Identifier nm) args]) ∧
    (∀ nm params r, nodeTraversal false (.CallExpression nm params) = .ok r →
      ∃ args, r = [TgtNode.ExpressionStatement (.CallExpression (.Identifier nm) args)]) ∧
    compile "(add 2 (subtract 4 2))" = .ok "add(2, subtract(4, 2));" := by
  refine ⟨?_, ?_, by decide⟩
  · intro nm params r h
    have hdef : nodeTraversal true (.CallExpression nm params) =
        (arrayTraversal true params).map
          (fun args => [TgtNode.CallExpression (.Identifier nm) args]) := rfl
    rw [hdef, map_eq_ok] at h
    obtain ⟨args, _, hr⟩ := h
    exact ⟨args, hr⟩
  · intro nm params r h
    have hdef : nodeTraversal false (.CallExpression nm params) =
        (arrayTraversal true params).map
          (fun args => [TgtNode.ExpressionStatement
            (.CallExpression (.Identifier nm) args)]) := rfl
    rw [hdef, map_eq_ok] at h
    obtain ⟨args, _, hr⟩ := h
    exact ⟨args, hr⟩

/-- Claim C6 witness: the two traversal conjuncts applied at a concrete
one-argument call. -/
theorem claim_C6_witness :
    (∃ args, ([TgtNode.CallExpression (.Identifier "add") [.NumberLiteral "2"]] :
      List TgtNode) = [TgtNode.CallExpression (.Identifier "add") args]) ∧
    (∃ args, ([TgtNode.ExpressionStatement
        (.CallExpression (.Identifier "add") [.NumberLiteral "2"])] : List TgtNode) =
      [TgtNode.ExpressionStatement (.CallExpression (.Identifier "add") args)]) :=
  ⟨claim_C6.1 "add" [.NumberLiteral "2"] _ rfl,
   claim_C6.2.1 "add" [.NumberLiteral "2"] _ rfl⟩

/-- Claim C7: the parser takes the text of whatever token follows the
opening parenthesis as the call name with no kind check: for the input
whose callee position holds a number token, the parsed call has name
"2", and compile renders it as a call of "2". -/
theorem claim_C7 :
    tokenizer "(2 3)" = .ok [⟨"parenthesis", "("⟩, ⟨"number", "2"⟩, ⟨"number", "3"⟩,
      ⟨"parenthesis", ")"⟩] ∧
    parser [⟨"parenthesis", "("⟩, ⟨"number", "2"⟩, ⟨"number", "3"⟩, ⟨"parenthesis", ")"⟩] =
      .ok (.Program [.CallExpression "2" [.NumberLiteral "3"]]) ∧
    compile "(2 3)" = .ok "2(3);" :=
  ⟨by decide, rfl, by decide⟩

/-- Claim C8: a program of several top-level calls is emitted one
statement per line in source order, joined by a single newline
character. -/
theorem claim_C8 : compile "(a 1) (b 2)" = .ok ("a(1);" ++ "\n" ++ "b(2);") := by decide

/-- Claim C9: numeric literal preservation.  The lexer records a maximal
digit run verbatim as the text of one number token at any scan
position; the transform stage copies the value of a NumberLiteral
unchanged whatever the parent; the code generator prints the stored
value string verbatim; and end to end, compiling a call with an
arbitrary digit-run argument (any length, leading zeros included)
emits that digit text character for character. -/
theorem claim_C9 :
    (∀ (f : Nat) (ds rest : List Char), ds ≠ [] → (∀ c ∈ ds, NUMBERS c = true) →
      (∀ c, rest.head? = some c → NUMBERS c = false) →
      tokenizerLoop (f + 1) (ds ++ rest) =
        (tokenizerLoop f rest).map (fun ts => ⟨"number", String.mk ds⟩ :: ts)) ∧
    (∀ (b : Bool) (v : String), nodeTraversal b (.NumberLiteral v) = .ok [.NumberLiteral v]) ∧
    (∀ v : String, codeGenerator (.NumberLiteral v) = v) ∧
    (∀ v : String, v.data ≠ [] → (∀ c ∈ v.data, NUMBERS c = true) →
      compile ("(f " ++ v ++ ")") = .ok ("f(" ++ v ++ ");")) :=
  ⟨tokenizerLoop_digitRun, fun b _ => by cases b <;> rfl, fun _ => rfl, compile_digitcall⟩

/-- Claim C9 witness: the lexer conjunct at a concrete digit run and the
end-to-end conjunct at a literal with leading zeros. -/
theorem claim_C9_witness :
    tokenizerLoop 1 (['4', '2'] ++ []) = .ok [⟨"number", "42"⟩] ∧
    compile "(f 007)" = .ok "f(007);" := by
  constructor
  · have h := claim_C9.1 0 ['4', '2'] [] (by decide) (by decide)
      (fun c hc => Option.noConfusion hc)
    rw [h]
    rfl
  · exact claim_C9.2.2.2 "007" (by decide) (by decide)

/-- Claim C10: the empty input and every whitespace-only input compile
to the empty string: the lexer produces no tokens, the parser produces a
Program with empty body, the transformer keeps it empty, and the
generator joins zero statements into the empty string. -/
theorem claim_C10 :
    compile "" = .ok "" ∧
    tokenizer "" = .ok [] ∧
    parser [] = .ok (.Program []) ∧
    transform (.Program []) = .ok (.Program []) ∧
    codeGenerator (.Program []) = "" ∧
    (∀ s : String, (∀ c ∈ s.data, WHITESPACE c = true) →
      tokenizer s = .ok [] ∧ compile s = .ok "") := by
  refine ⟨by decide, by decide, rfl, rfl, rfl, ?_⟩
  intro s h
  exact ⟨tokenizer_ws s h, compile_ws s h⟩

/-- Claim C10 witness: the whitespace conjunct at a concrete input of
blanks and a tab. -/
theorem claim_C10_witness : tokenizer " \t " = .ok [] ∧ compile " \t " = .ok "" :=
  claim_C10.2.2.2.2.2 " \t " (by decide)

end EzCompiler
